import Mathlib

/-!
Verification of the wavetable merge module (merge.py) against its
natural-language specification.  The Python source is shallowly embedded:
pure functions become Lean functions, numpy reals become Lean reals,
fallible code returns Option / Except.
-/

set_option maxHeartbeats 1000000

/-! ## Discrete helpers from merge.py -/

/-- Embedding of merge.py `_get(waveseq, i)`: returns `waveseq[i]`, holding the
last element once `i` runs past the end.  Python raises IndexError when the
list is empty (the `waveseq[-1]` access); that is modelled as `none`. -/
def _get {α : Type} (waveseq : List α) (i : ℕ) : Option α :=
  if i ≥ waveseq.length then waveseq.getLast? else waveseq.get? i

/-- Helper used to describe `_get` on nonempty lists: the padded accessor that
clamps the index to the last position. -/
def padded {α : Type} (l : List α) (d : α) (i : ℕ) : α :=
  l.getD (min i (l.length - 1)) d

/-- Embedding of merge.py `merge_waves_mml(waves, mml, vol_curve)`.
The MML string is modelled as an already-parsed index list (parsing lives in
the excluded `global_util` collaborator); numpy fancy indexing `waves[inds]`
is modelled with `getD`.  Python truthiness of `mml` / `vol_curve` is
modelled by `none` / empty being falsy.  `_get` on an empty sequence raises,
hence the `Option` result. -/
def merge_waves_mml (waves : List (List ℚ)) (mml : Option (List ℕ))
    (vol_curve : Option (List ℚ)) : Option (List (List ℚ)) :=
  let seq := match mml with
    | none => waves
    | some inds => inds.map (fun j => waves.getD j [])
  let vc := vol_curve.getD []
  if vc = [] then some seq
  else
    (List.range (max seq.length vc.length)).mapM (fun i => do
      let w ← _get seq i
      let v ← _get vc i
      pure (w.map (fun x => x * v)))

/-- Loop of `Merge.combine`: walks the wave sequence, keeps the ordered list of
first occurrences (the OrderedDict keys) and accumulates the index sequence
(in reverse, fixed up at the end). -/
def combineGo {α : Type} [DecidableEq α] :
    List α → List α → List ℕ → List α × List ℕ
  | [], keys, mml => (keys, mml.reverse)
  | w :: rest, keys, mml =>
    let keys' := if w ∈ keys then keys else keys ++ [w]
    combineGo rest keys' (keys'.indexOf w :: mml)

/-- Embedding of `Merge.combine(waveseq)`.  The source computes the minimal
wave sequence (OrderedDict insertion order) and the index list `mml`, then
prints both and returns `None` even though its docstring says it returns
them; this embedding returns the pair of computed (printed) values. -/
def Merge.combine {α : Type} [DecidableEq α] (waveseq : List α) :
    List α × List ℕ :=
  combineGo waveseq [] []

/-! ## The merge engine (class Merge) -/

noncomputable section

/-- Embedding of merge.py module-level `rms(arr)`: root of the mean of the
squares. -/
def np_mean (l : List ℝ) : ℝ := l.sum / l.length

/-- Mean of a list of complex phasors, as computed by `np.mean`. -/
def np_meanC (l : List ℂ) : ℂ := l.sum / l.length

/-- Embedding of merge.py `rms(arr)`. -/
def rms (arr : List ℝ) : ℝ := Real.sqrt (np_mean (arr.map (fun x => x ^ 2)))

/-- Embedding of the `MergeStyle` enum (`NO_PHASE = 1, PHASE = 2`). -/
inductive MergeStyle : Type
  | NO_PHASE : MergeStyle
  | PHASE : MergeStyle
deriving DecidableEq

/-- State stored by a `Merge` instance: exactly the three attributes that
`Merge.__init__` assigns, with no validation. -/
structure Merge where
  avg_func : List ℝ → ℝ
  merge_style : MergeStyle
  scaling : String

/-- Embedding of `Merge.__init__`: it only stores its arguments. -/
def Merge.init (avg_func : List ℝ → ℝ) (merge_style : MergeStyle)
    (scaling : String) : Merge :=
  { avg_func := avg_func, merge_style := merge_style, scaling := scaling }

/-- A `Merge` built with `Merge()` in Python: the declared default arguments
`np.mean`, `MergeStyle.NO_PHASE`, `'local'`. -/
def defaultMerge : Merge := Merge.init np_mean MergeStyle.NO_PHASE "local"

/-- The principal n-th root of unity used by the discrete Fourier transform
conventions of `np.fft`. -/
def zeta (n : ℕ) : ℂ := Complex.exp (2 * Real.pi * Complex.I / n)

/-- Mathematical semantics of `np.fft.rfft` on a real wave of length L:
the first `L / 2 + 1` coefficients of the DFT. -/
def np_rfft (w : List ℝ) : List ℂ :=
  (List.range (w.length / 2 + 1)).map (fun j : ℕ =>
    ∑ m in Finset.range w.length,
      (w.getD m 0 : ℂ) * zeta w.length ^ (-((j : ℤ) * (m : ℤ))))

/-- The tuple produced by `itertools.zip_longest(*ffts, fillvalue=0j)` at
harmonic `f`: one coefficient per spectrum, missing entries filled with 0. -/
def coeffsAt (ffts : List (List ℂ)) (f : ℕ) : List ℂ :=
  ffts.map (fun s => s.getD f 0)

/-- The per-harmonic combination step in `Merge._merge_waves`: in the
`NO_PHASE` branch the magnitude is `avg_func` of the coefficient magnitudes
times `transfer(f)` and the phase is the angle of the plain mean; in the
`PHASE` branch the plain mean times `transfer(f)`. -/
def mergedPhasor (M : Merge) (transfer : ℕ → ℝ) (f : ℕ)
    (coeffs : List ℂ) : ℂ :=
  match M.merge_style with
  | MergeStyle.NO_PHASE =>
    ((M.avg_func (coeffs.map Complex.abs) * transfer f : ℝ) : ℂ) *
      Complex.exp (Complex.I * ((np_meanC coeffs).arg : ℂ))
  | MergeStyle.PHASE => np_meanC coeffs * ((transfer f : ℝ) : ℂ)

/-- Modelled from the spec: `fourier.irfft(spectrum, nsamp)` is not under
src/; per the spec (SpectralTransform, section 4.1) the inverse transform
produces a waveform of exactly `nsamp` samples from a phasor spectrum, with
the precise interpolation rule left open; it is modelled as the standard
inverse transform evaluated at `nsamp` points. -/
def fourier_irfft (spectrum : List ℂ) (nsamp : ℕ) : List ℝ :=
  (List.range nsamp).map (fun i : ℕ =>
    ((∑ j in Finset.range spectrum.length,
      spectrum.getD j 0 * zeta nsamp ^ ((j : ℤ) * (i : ℤ))) / nsamp).re)

/-- Modelled from the spec: `gauss.rescale_quantize` on a single wave is not
under src/; per the spec (Rescaler, section 4.3) it quantizes into a
symmetric integer range (maxrange 16 in the example), preserves the shape,
and maps an all-zero wave to all zeros. -/
def rescale_quantize (w : List ℝ) : List ℝ :=
  let peak := (w.map (fun x => |x|)).foldl max 0
  if peak = 0 then w.map (fun _ => 0)
  else w.map (fun x => ((round (x / peak * 16) : ℤ) : ℝ))

/-- Modelled from the spec: `gauss.rescale_quantize` applied to a whole wave
sequence ("global" scaling) uses one shared peak and preserves the shape of
every wave. -/
def rescale_quantize_seq (ws : List (List ℝ)) : List (List ℝ) :=
  let peak := (ws.map (fun w => (w.map (fun x => |x|)).foldl max 0)).foldl max 0
  if peak = 0 then ws.map (fun w => w.map (fun _ => 0))
  else ws.map (fun w => w.map (fun x => ((round (x / peak * 16) : ℤ) : ℝ)))

/-- Modelled from the spec: `transfer.Unity()` is not under src/; it is the
identity transfer weight, 1 at every harmonic. -/
def unityTransfer : ℕ → ℝ := fun _ => 1

/-- Modelled from the spec: the `Instr` data model (wave sequence, positive
harmonic multiplier `freq`, amplitude `amp`) lives in the excluded
`wavetable.instrument` collaborator. -/
structure Instr where
  waveseq : List (List ℝ)
  freq : ℕ
  amp : ℝ

/-- Modelled from numpy: `npcat` concatenates a list of waves end to end. -/
def npcat (ws : List (List ℝ)) : List ℝ := ws.flatten

/-- One instrument's contribution at frame `i` in `Merge.merge_instrs`:
`npcat([wave] * instr.freq) * instr.amp` with `wave = _get(waveseq, i)`. -/
def instr_contribution (instr : Instr) (i : ℕ) : Option (List ℝ) :=
  (_get instr.waveseq i).map (fun wave =>
    (npcat (List.replicate instr.freq wave)).map (fun x => x * instr.amp))

/-- Embedding of `Merge._merge_waves(waves, nsamp, transfer)`. -/
def Merge.merge_waves (M : Merge) (waves : List (List ℝ)) (nsamp : ℕ)
    (transfer : ℕ → ℝ) : List ℝ :=
  let ffts := waves.map np_rfft
  let outs := (List.range ((ffts.map List.length).foldl max 0)).map
    (fun f => mergedPhasor M transfer f (coeffsAt ffts f))
  let wave_out := fourier_irfft outs nsamp
  if M.scaling = "local" then rescale_quantize wave_out else wave_out

/-- Embedding of `Merge.merge_instrs(instrs, nsamp, transfer)`: `max()` over
an empty instrument list raises (none); each frame gathers the instrument
contributions (which raise on an empty wave sequence) and merges them. -/
def Merge.merge_instrs (M : Merge) (instrs : List Instr) (nsamp : ℕ)
    (transfer : ℕ → ℝ) : Option (List (List ℝ)) :=
  if instrs.isEmpty then none
  else do
    let merged ← (List.range
        ((instrs.map (fun instr => instr.waveseq.length)).foldl max 0)).mapM
      (fun i => do
        let harmonic_waves ← instrs.mapM (fun instr => instr_contribution instr i)
        pure (M.merge_waves harmonic_waves nsamp transfer))
    pure (if M.scaling = "global" then rescale_quantize_seq merged else merged)

end

/-! ## Correlation (module-level functions of merge.py) -/

noncomputable section

/-- A minimal model of a numpy ndarray: its shape and its flattened data.
`np.array` of a flat list of reals gives a 1-D array. -/
structure NDArray where
  shape : List ℕ
  data : List ℝ

/-- The array `np.array(l)` built from a flat list `l`. -/
def NDArray.mk1 (l : List ℝ) : NDArray := ⟨[l.length], l⟩

/-- Mathematical semantics of `np.fft.fft` applied to real data. -/
def dftList (l : List ℝ) : List ℂ :=
  (List.range l.length).map (fun j : ℕ =>
    ∑ m in Finset.range l.length,
      (l.getD m 0 : ℂ) * zeta l.length ^ (-((j : ℤ) * (m : ℤ))))

/-- `np.fft.fft`, which raises on zero data points. -/
def np_fft (l : List ℝ) : Except String (List ℂ) :=
  if l.length = 0 then Except.error "Invalid number of FFT data points"
  else Except.ok (dftList l)

/-- Mathematical semantics of `np.fft.ifft`. -/
def idftList (l : List ℂ) : List ℂ :=
  (List.range l.length).map (fun k : ℕ =>
    (∑ j in Finset.range l.length,
      l.getD j 0 * zeta l.length ^ ((j : ℤ) * (k : ℤ))) / l.length)

/-- `np.fft.ifft`, which raises on zero data points. -/
def np_ifft (l : List ℂ) : Except String (List ℂ) :=
  if l.length = 0 then Except.error "Invalid number of FFT data points"
  else Except.ok (idftList l)

/-- Embedding of merge.py `correlate(fixed, sweep)`: raises on a shape
mismatch or a non-1-D input, otherwise returns
`ifft(fft(fixed) * fft(sweep).conj()).real`. -/
def correlate (fixed sweep : NDArray) : Except String (List ℝ) :=
  if fixed.shape ≠ sweep.shape ∨ fixed.shape.length ≠ 1 then
    Except.error "incorrect dimensions"
  else do
    let f ← np_fft fixed.data
    let s ← np_fft sweep.data
    let c ← np_ifft (List.zipWith (fun x y => x * (starRingEnd ℂ) y) f s)
    Except.ok (c.map Complex.re)

/-- Semantics of `np.argmax` on a 1-D array: the first index attaining the
maximum (numpy documents first-occurrence tie-breaking).  The empty case
never arises inside `correlate_offset`, because `correlate` raises first. -/
def np_argmaxL (l : List ℝ) : ℕ :=
  sInf {j | ∃ h : j < l.length,
    ∀ k, ∀ hk : k < l.length, l.get ⟨k, hk⟩ ≤ l.get ⟨j, h⟩}

/-- Embedding of merge.py `correlate_offset(fixed, sweep)`.  The raise in
the source is an f-string mentioning a variable `i` that is undefined in
that scope (so at runtime Python raises NameError rather than the intended
ValueError); either way the call fails, modelled as an error. -/
def correlate_offset (fixed sweep : NDArray) : Except String ℕ := do
  let corrs ← correlate fixed sweep
  if np_argmaxL (corrs.map (fun x => |x|)) ≠ np_argmaxL corrs then
    Except.error "seems like you need to invert wave"
  else Except.ok (np_argmaxL corrs)

/-- Semantics of `np.roll(l, k)`: entry `i` becomes `l[(i - k) mod n]`. -/
def np_roll (l : List ℝ) (k : ℕ) : List ℝ :=
  (List.range l.length).map (fun i : ℕ =>
    l.getD ((i + l.length - k % l.length) % l.length) 0)

/-- Loop of `align_waves`: each wave is aligned against the previous,
already rolled, output wave (`out[-1]`). -/
def alignGo (prev : List ℝ) : List (List ℝ) → Except String (List (List ℝ))
  | [] => Except.ok []
  | w :: ws => do
    let offset ← correlate_offset (NDArray.mk1 prev) (NDArray.mk1 w)
    let rolled := np_roll w offset
    let rest ← alignGo rolled ws
    Except.ok (rolled :: rest)

/-- Embedding of merge.py `align_waves(waveseq)`; `waveseq[0]` raises on an
empty sequence. -/
def align_waves (waveseq : List (List ℝ)) : Except String (List (List ℝ)) :=
  match waveseq with
  | [] => Except.error "list index out of range"
  | w0 :: rest => do
    let aligned ← alignGo w0 rest
    Except.ok (w0 :: aligned)

/-- Circular autocorrelation in the time domain, the quantity that drives
`correlate_offset` on a wave against a rotation or negation of itself. -/
def autocorr {n : ℕ} [NeZero n] (w : Fin n → ℝ) (l : Fin n) : ℝ :=
  ∑ m, w m * w (m - l)

/-- The time-domain value of `correlate` on equal-length 1-D inputs:
circular cross-correlation. -/
def ccorrTime (a b : List ℝ) : List ℝ :=
  List.ofFn (fun k : Fin a.length =>
    ∑ m : Fin a.length, a.get m * b.getD ((m - k : Fin a.length) : ℕ) 0)

end

/-! ## Theorems about the discrete helpers -/

theorem option_bind_some {α β : Type} (x : α) (g : α → Option β) :
    (some x >>= g) = g x := rfl

theorem mapM_option_map {α β : Type} (f : α → Option β) (g : α → β)
    (l : List α) (h : ∀ a ∈ l, f a = some (g a)) :
    l.mapM f = some (l.map g) := by
  induction l with
  | nil => rfl
  | cons a l ih =>
    have ha := h a (List.mem_cons_self a l)
    have hl := ih (fun b hb => h b (List.mem_cons_of_mem a hb))
    rw [List.mapM_cons, ha, hl]
    rfl

theorem _get_eq_padded {α : Type} (l : List α) (d : α) (hl : l ≠ []) (i : ℕ) :
    _get l i = some (padded l d i) := by
  have hpos : 0 < l.length := List.length_pos.mpr hl
  unfold _get padded
  by_cases h : i ≥ l.length
  · rw [if_pos h]
    have hmin : min i (l.length - 1) = l.length - 1 :=
      min_eq_right (by omega)
    rw [hmin, List.getLast?_eq_getElem?, List.getD_eq_getElem?_getD]
    have hlt : l.length - 1 < l.length := by omega
    simp [List.getElem?_eq_getElem hlt]
  · rw [if_neg h]
    push_neg at h
    have hmin : min i (l.length - 1) = i := min_eq_left (by omega)
    rw [hmin, List.getD_eq_getElem?_getD]
    simp [List.getElem?_eq_getElem h, List.get?_eq_getElem?]

/-- C7 (confirmed): for a nonempty wave sequence the per-index accessor
`_get` returns the last waveform for every index at or past the end, so an
instrument queried at frame 10 of a 3-frame sequence contributes exactly
what it contributes at frame 2. -/
theorem C7_get_pads_by_repetition :
    (∀ (α : Type) (l : List α) (i : ℕ) (h1 : l ≠ []), l.length ≤ i →
       _get l i = some (l.getLast h1) ∧ _get l i = _get l (l.length - 1)) := by
  intro α l i h1 h2
  have hpos : 0 < l.length := List.length_pos.mpr h1
  constructor
  · unfold _get
    rw [if_pos h2, List.getLast?_eq_getLast l h1]
  · rw [_get_eq_padded l (l.getLast h1) h1 i,
      _get_eq_padded l (l.getLast h1) h1 (l.length - 1)]
    unfold padded
    have h3 : min i (l.length - 1) = l.length - 1 := min_eq_right (by omega)
    have h4 : min (l.length - 1) (l.length - 1) = l.length - 1 := min_self _
    rw [h3, h4]

theorem C7_get_pads_by_repetition_witness :
    ([(10 : ℤ), 20, 30] : List ℤ) ≠ [] ∧
    _get [(10 : ℤ), 20, 30] 10 = some 30 ∧
    _get [(10 : ℤ), 20, 30] 10 = _get [(10 : ℤ), 20, 30] 2 := by
  have h := C7_get_pads_by_repetition ℤ [(10 : ℤ), 20, 30] 10
    (by decide) (by decide)
  exact ⟨by decide, by rw [h.1]; rfl, h.2⟩

/-- C10 (confirmed): with no MML indices and no volume curve,
`merge_waves_mml` is the identity; with a nonempty volume curve the output
has length `max (len waves) (len curve)` and entry `i` multiplies the
clamped frame `i` by the clamped curve value `i`. -/
theorem C10_merge_waves_mml_spec :
    (∀ waves : List (List ℚ), merge_waves_mml waves none none = some waves) ∧
    (∀ (waves : List (List ℚ)) (vc : List ℚ), waves ≠ [] → vc ≠ [] →
      ∃ out, merge_waves_mml waves none (some vc) = some out ∧
        out.length = max waves.length vc.length ∧
        ∀ i (hi : i < out.length), ∃ w v,
          _get waves i = some w ∧ _get vc i = some v ∧
          out.get ⟨i, hi⟩ = w.map (fun x => x * v)) := by
  constructor
  · intro waves; rfl
  · intro waves vc hw hvc
    set cnt := max waves.length vc.length with hcnt
    have hmap : (List.range cnt).mapM (fun i => do
        let w ← _get waves i
        let v ← _get vc i
        pure (w.map (fun x => x * v))) =
        some ((List.range cnt).map (fun i =>
          (padded waves [] i).map (fun x => x * padded vc 0 i))) := by
      apply mapM_option_map
      intro i _
      rw [_get_eq_padded waves [] hw i, _get_eq_padded vc 0 hvc i]
      rfl
    refine ⟨(List.range cnt).map (fun i =>
      (padded waves [] i).map (fun x => x * padded vc 0 i)), ?_, ?_, ?_⟩
    · unfold merge_waves_mml
      simp only [Option.getD_some]
      rw [if_neg hvc]
      exact hmap
    · simp [hcnt]
    · intro i hi
      refine ⟨padded waves [] i, padded vc 0 i,
        _get_eq_padded waves [] hw i, _get_eq_padded vc 0 hvc i, ?_⟩
      have hi' : i < cnt := by simpa using hi
      simp [List.get_eq_getElem]

theorem C10_merge_waves_mml_spec_witness :
    merge_waves_mml [[1, 2], [3, 4]] none none = some [[1, 2], [3, 4]] ∧
    (∃ out, merge_waves_mml [[1, 2]] none (some [2, 3]) = some out ∧
      out.length = max ([[(1 : ℚ), 2]] : List (List ℚ)).length
        ([(2 : ℚ), 3] : List ℚ).length ∧
      ∀ i (hi : i < out.length), ∃ w v,
        _get [[(1 : ℚ), 2]] i = some w ∧ _get [(2 : ℚ), 3] i = some v ∧
        out.get ⟨i, hi⟩ = w.map (fun x => x * v)) :=
  ⟨C10_merge_waves_mml_spec.1 [[1, 2], [3, 4]],
   C10_merge_waves_mml_spec.2 [[(1 : ℚ), 2]] [(2 : ℚ), 3]
     (by decide) (by decide)⟩

/-- C1 (code_bug): `Merge.combine`'s docstring says it returns the minimal
wave sequence and the index list, but the source prints them and returns
`None`.  The computed (printed) values at the spec's example input are
exactly the minimal sequence `[[0,1],[2,3]]` and indices `[0,1,0,0,1]`. -/
theorem C1_combine_example :
    Merge.combine ([[0, 1], [2, 3], [0, 1], [0, 1], [2, 3]] : List (List ℤ)) =
      ([[0, 1], [2, 3]], [0, 1, 0, 0, 1]) := by
  decide

/-! ## Theorems about the merge engine -/

theorem le_foldl_max (l : List ℕ) (a : ℕ) :
    (∀ x ∈ l, x ≤ l.foldl max a) ∧ a ≤ l.foldl max a := by
  induction l generalizing a with
  | nil => exact ⟨by simp, le_refl a⟩
  | cons x xs ih =>
    obtain ⟨h1, h2⟩ := ih (max a x)
    refine ⟨?_, le_trans (le_max_left a x) h2⟩
    intro y hy
    rcases List.mem_cons.mp hy with h | h
    · subst h; exact le_trans (le_max_right a y) h2
    · exact h1 y h

theorem foldl_max_eq_or_mem (l : List ℕ) (a : ℕ) :
    l.foldl max a = a ∨ l.foldl max a ∈ l := by
  induction l generalizing a with
  | nil => exact Or.inl rfl
  | cons x xs ih =>
    rcases ih (max a x) with h | h
    · rcases max_choice a x with hm | hm
      · exact Or.inl (by rw [List.foldl_cons, h, hm])
      · exact Or.inr (by rw [List.foldl_cons, h, hm]; exact List.mem_cons_self x xs)
    · exact Or.inr (List.mem_cons_of_mem x h)

theorem foldl_max_mem (l : List ℕ) (hl : l ≠ []) : l.foldl max 0 ∈ l := by
  rcases foldl_max_eq_or_mem l 0 with h | h
  · cases l with
    | nil => exact absurd rfl hl
    | cons x xs =>
      have hx : x ≤ (x :: xs).foldl max 0 := (le_foldl_max (x :: xs) 0).1 x
        (List.mem_cons_self x xs)
      rw [h] at hx
      have : x = 0 := Nat.le_zero.mp hx
      rw [h, ← this]
      exact List.mem_cons_self x xs
  · exact h

theorem rescale_quantize_length (w : List ℝ) :
    (rescale_quantize w).length = w.length := by
  unfold rescale_quantize
  by_cases h : (w.map (fun x => |x|)).foldl max 0 = 0 <;> simp [h]

theorem rescale_quantize_seq_mem (ws : List (List ℝ)) (v : List ℝ)
    (hv : v ∈ rescale_quantize_seq ws) : ∃ w ∈ ws, v.length = w.length := by
  unfold rescale_quantize_seq at hv
  by_cases h : ((ws.map (fun w => (w.map (fun x => |x|)).foldl max 0)).foldl max 0) = 0
  · rw [if_pos h] at hv
    obtain ⟨w, hw, rfl⟩ := List.mem_map.mp hv
    exact ⟨w, hw, by simp⟩
  · rw [if_neg h] at hv
    obtain ⟨w, hw, rfl⟩ := List.mem_map.mp hv
    exact ⟨w, hw, by simp⟩

theorem rescale_quantize_seq_length (ws : List (List ℝ)) :
    (rescale_quantize_seq ws).length = ws.length := by
  unfold rescale_quantize_seq
  by_cases h : ((ws.map (fun w => (w.map (fun x => |x|)).foldl max 0)).foldl max 0) = 0 <;>
    simp [h]

theorem fourier_irfft_length (spectrum : List ℂ) (nsamp : ℕ) :
    (fourier_irfft spectrum nsamp).length = nsamp := by
  unfold fourier_irfft
  rw [List.length_map, List.length_range]

theorem merge_waves_length (M : Merge) (waves : List (List ℝ)) (nsamp : ℕ)
    (t : ℕ → ℝ) : (M.merge_waves waves nsamp t).length = nsamp := by
  unfold Merge.merge_waves
  by_cases h : M.scaling = "local"
  · rw [if_pos h, rescale_quantize_length, fourier_irfft_length]
  · rw [if_neg h, fourier_irfft_length]

theorem merge_instrs_spec (M : Merge) (instrs : List Instr) (nsamp : ℕ)
    (t : ℕ → ℝ) (h1 : instrs ≠ []) (h2 : ∀ instr ∈ instrs, instr.waveseq ≠ []) :
    ∃ out, M.merge_instrs instrs nsamp t = some out ∧
      out.length = (instrs.map (fun instr => instr.waveseq.length)).foldl max 0 ∧
      (∀ instr ∈ instrs, instr.waveseq.length ≤ out.length) ∧
      (∃ instr ∈ instrs, out.length = instr.waveseq.length) ∧
      (∀ w ∈ out, w.length = nsamp) := by
  have hinner : ∀ i : ℕ,
      instrs.mapM (fun instr => instr_contribution instr i) =
      some (instrs.map (fun instr =>
        (npcat (List.replicate instr.freq (padded instr.waveseq [] i))).map
          (fun x => x * instr.amp))) := by
    intro i
    apply mapM_option_map
    intro instr hm
    unfold instr_contribution
    rw [_get_eq_padded instr.waveseq [] (h2 instr hm) i]
    rfl
  set L := (instrs.map (fun instr => instr.waveseq.length)).foldl max 0 with hL
  set merged := (List.range L).map (fun i => M.merge_waves
      (instrs.map (fun instr =>
        (npcat (List.replicate instr.freq (padded instr.waveseq [] i))).map
          (fun x => x * instr.amp))) nsamp t) with hmerged
  have houter : (List.range L).mapM (fun i => do
      let harmonic_waves ← instrs.mapM (fun instr => instr_contribution instr i)
      pure (M.merge_waves harmonic_waves nsamp t)) = some merged := by
    apply mapM_option_map
    intro i _
    rw [hinner i]
    rfl
  have hrun : M.merge_instrs instrs nsamp t =
      some (if M.scaling = "global" then rescale_quantize_seq merged else merged) := by
    unfold Merge.merge_instrs
    rw [if_neg (by simpa [List.isEmpty_iff] using h1)]
    rw [← hL, houter]
    rfl
  have hmlen : merged.length = L := by rw [hmerged]; simp
  have hmnsamp : ∀ w ∈ merged, w.length = nsamp := by
    intro w hw
    rw [hmerged] at hw
    obtain ⟨i, _, rfl⟩ := List.mem_map.mp hw
    exact merge_waves_length _ _ _ _
  by_cases hg : M.scaling = "global"
  · refine ⟨rescale_quantize_seq merged, by rw [hrun, if_pos hg], ?_, ?_, ?_, ?_⟩
    · rw [rescale_quantize_seq_length, hmlen]
    · intro instr hm
      rw [rescale_quantize_seq_length, hmlen]
      exact (le_foldl_max _ 0).1 _ (List.mem_map.mpr ⟨instr, hm, rfl⟩)
    · have := foldl_max_mem (instrs.map (fun instr => instr.waveseq.length))
        (by simpa using h1)
      obtain ⟨instr, hm, hv⟩ := List.mem_map.mp this
      exact ⟨instr, hm, by rw [rescale_quantize_seq_length, hmlen, hL, hv]⟩
    · intro w hw
      obtain ⟨v, hv, hlen⟩ := rescale_quantize_seq_mem merged w hw
      rw [hlen]
      exact hmnsamp v hv
  · refine ⟨merged, by rw [hrun, if_neg hg], hmlen, ?_, ?_, hmnsamp⟩
    · intro instr hm
      rw [hmlen]
      exact (le_foldl_max _ 0).1 _ (List.mem_map.mpr ⟨instr, hm, rfl⟩)
    · have := foldl_max_mem (instrs.map (fun instr => instr.waveseq.length))
        (by simpa using h1)
      obtain ⟨instr, hm, hv⟩ := List.mem_map.mp this
      exact ⟨instr, hm, by rw [hmlen, hL, hv]⟩

/-- C5 (confirmed): for a non-empty instrument list (with the nonempty wave
sequences the data model requires), `merge_instrs` succeeds, the merged
sequence length is the maximum frame count over the instruments (no
instrument is truncated), and every output waveform has exactly `nsamp`
samples. -/
theorem C5_merged_shape (M : Merge) (instrs : List Instr) (nsamp : ℕ)
    (t : ℕ → ℝ) (h1 : instrs ≠ []) (h2 : ∀ instr ∈ instrs, instr.waveseq ≠ []) :
    ∃ out, M.merge_instrs instrs nsamp t = some out ∧
      out.length = (instrs.map (fun instr => instr.waveseq.length)).foldl max 0 ∧
      (∀ instr ∈ instrs, instr.waveseq.length ≤ out.length) ∧
      (∃ instr ∈ instrs, out.length = instr.waveseq.length) ∧
      (∀ w ∈ out, w.length = nsamp) :=
  merge_instrs_spec M instrs nsamp t h1 h2

theorem C5_merged_shape_witness :
    ∃ out, defaultMerge.merge_instrs [Instr.mk [[1, 0]] 1 1] 2 unityTransfer =
        some out ∧
      out.length = ([Instr.mk [[1, 0]] 1 1].map
        (fun instr => instr.waveseq.length)).foldl max 0 ∧
      (∀ instr ∈ [Instr.mk [[1, 0]] 1 1], instr.waveseq.length ≤ out.length) ∧
      (∃ instr ∈ [Instr.mk [[1, 0]] 1 1], out.length = instr.waveseq.length) ∧
      (∀ w ∈ out, w.length = 2) :=
  C5_merged_shape defaultMerge [Instr.mk [[1, 0]] 1 1] 2 unityTransfer
    (by simp)
    (by intro instr h; rw [List.mem_singleton] at h; subst h; simp)

/-- C4 (counterexample): constructing a merge engine with the unknown scaling
scope "bogus" does not raise; the value is stored as-is and a full merge
still runs and returns a result. -/
theorem C4_invalid_scaling_accepted :
    (Merge.init np_mean MergeStyle.NO_PHASE "bogus").scaling = "bogus" ∧
    ∃ out, (Merge.init np_mean MergeStyle.NO_PHASE "bogus").merge_instrs
        [Instr.mk [[1, 0]] 1 1] 2 unityTransfer = some out := by
  refine ⟨rfl, ?_⟩
  obtain ⟨out, hout, -, -, -, -⟩ := merge_instrs_spec
    (Merge.init np_mean MergeStyle.NO_PHASE "bogus")
    [Instr.mk [[1, 0]] 1 1] 2 unityTransfer (by simp)
    (by intro instr h; rw [List.mem_singleton] at h; subst h; simp)
  exact ⟨out, hout⟩

/-- C4 (amended): `Merge.__init__` performs no validation: it stores its
three arguments unchanged whatever they are, and the scaling scope is only
consulted later during merging, where any value other than "local" simply
skips the per-wave rescale instead of raising. -/
theorem C4_no_validation_at_construction :
    (∀ (af : List ℝ → ℝ) (ms : MergeStyle) (sc : String),
      (Merge.init af ms sc).avg_func = af ∧
      (Merge.init af ms sc).merge_style = ms ∧
      (Merge.init af ms sc).scaling = sc) ∧
    (∀ (M : Merge) (waves : List (List ℝ)) (nsamp : ℕ) (t : ℕ → ℝ),
      M.scaling ≠ "local" →
      M.merge_waves waves nsamp t =
        fourier_irfft ((List.range
            (((waves.map np_rfft).map List.length).foldl max 0)).map
          (fun f => mergedPhasor M t f (coeffsAt (waves.map np_rfft) f))) nsamp) := by
  refine ⟨fun af ms sc => ⟨rfl, rfl, rfl⟩, ?_⟩
  intro M waves nsamp t h
  unfold Merge.merge_waves
  rw [if_neg h]

theorem C4_no_validation_witness :
    (Merge.init np_mean MergeStyle.PHASE "weird").scaling = "weird" ∧
    (Merge.init np_mean MergeStyle.PHASE "weird").merge_waves [] 3 unityTransfer =
      fourier_irfft ((List.range
          (((([] : List (List ℝ)).map np_rfft).map List.length).foldl max 0)).map
        (fun f => mergedPhasor (Merge.init np_mean MergeStyle.PHASE "weird")
          unityTransfer f (coeffsAt (([] : List (List ℝ)).map np_rfft) f))) 3 :=
  ⟨(C4_no_validation_at_construction.1 np_mean MergeStyle.PHASE "weird").2.2,
   C4_no_validation_at_construction.2 (Merge.init np_mean MergeStyle.PHASE "weird")
     [] 3 unityTransfer (by decide)⟩

/-- C6 (confirmed): at every harmonic index the coefficient tuple has one
entry per contributing spectrum (missing entries are the fill value 0), so
the mean used by the merge divides by the total number of contributing
instruments, not by the number that actually have that harmonic. -/
theorem C6_zip_longest_fills_zero :
    ∀ (ffts : List (List ℂ)) (f : ℕ),
      (coeffsAt ffts f).length = ffts.length ∧
      (∀ j (hj : j < ffts.length), (ffts.get ⟨j, hj⟩).length ≤ f →
        (coeffsAt ffts f).getD j 0 = 0) ∧
      np_meanC (coeffsAt ffts f) = (coeffsAt ffts f).sum / (ffts.length : ℂ) := by
  intro ffts f
  refine ⟨by simp [coeffsAt], ?_, ?_⟩
  · intro j hj hshort
    unfold coeffsAt
    rw [List.getD_eq_getElem?_getD, List.getElem?_map,
      List.getElem?_eq_getElem hj]
    simp only [Option.map_some', Option.getD_some]
    rw [List.getD_eq_getElem?_getD, List.getElem?_eq_none, Option.getD_none]
    simpa using hshort
  · unfold np_meanC
    rw [show (coeffsAt ffts f).length = ffts.length by simp [coeffsAt]]

theorem C6_zip_longest_fills_zero_witness :
    (coeffsAt [[(1 : ℂ)], []] 1).getD 1 0 = 0 :=
  (C6_zip_longest_fills_zero [[(1 : ℂ)], []] 1).2.1 1 (by norm_num) (by simp)

theorem mergedPhasor_default_eq (transfer : ℕ → ℝ) (f : ℕ) (coeffs : List ℂ) :
    mergedPhasor defaultMerge transfer f coeffs =
      ((np_mean (coeffs.map Complex.abs) * transfer f : ℝ) : ℂ) *
        Complex.exp (Complex.I * ((np_meanC coeffs).arg : ℂ)) := rfl

/-- C2 (amended): the default engine (`Merge()` with no arguments) uses
`np.mean` as its averaging function in the NO_PHASE branch, i.e. the AMP
strategy: the merged magnitude is the arithmetic mean of the contributing
magnitudes times the transfer weight, with the phase taken from the mean of
the raw phasors; the POWER (root-mean-square) behavior would require passing
`rms` explicitly. -/
theorem C2_default_is_amp :
    defaultMerge.avg_func = np_mean ∧
    defaultMerge.merge_style = MergeStyle.NO_PHASE ∧
    ∀ (transfer : ℕ → ℝ) (f : ℕ) (coeffs : List ℂ), 0 ≤ transfer f →
      Complex.abs (mergedPhasor defaultMerge transfer f coeffs) =
        np_mean (coeffs.map Complex.abs) * transfer f := by
  refine ⟨rfl, rfl, ?_⟩
  intro t f coeffs ht
  have hnn : 0 ≤ np_mean (coeffs.map Complex.abs) := by
    unfold np_mean
    apply div_nonneg
    · apply List.sum_nonneg
      intro x hx
      obtain ⟨c, -, rfl⟩ := List.mem_map.mp hx
      exact AbsoluteValue.nonneg Complex.abs c
    · exact Nat.cast_nonneg _
  rw [mergedPhasor_default_eq, map_mul, Complex.abs_ofReal, Complex.abs_exp]
  have hre : (Complex.I * (((np_meanC coeffs).arg : ℝ) : ℂ)).re = 0 := by
    simp [Complex.mul_re]
  rw [hre, Real.exp_zero, mul_one, abs_of_nonneg (mul_nonneg hnn ht)]

theorem C2_default_is_amp_witness :
    0 ≤ unityTransfer 0 ∧
    Complex.abs (mergedPhasor defaultMerge unityTransfer 0 [1, 7]) =
      np_mean (([1, 7] : List ℂ).map Complex.abs) * unityTransfer 0 :=
  ⟨by norm_num [unityTransfer],
   C2_default_is_amp.2.2 unityTransfer 0 [1, 7] (by norm_num [unityTransfer])⟩

/-- C2 (counterexample): with the default engine, phasors of magnitudes 1
and 7 merge to magnitude (1 + 7) / 2 = 4, whereas the claimed POWER rule
(root of the mean square) gives sqrt((1 + 49) / 2) = 5, so the default is
not POWER. -/
theorem C2_default_not_power :
    Complex.abs (mergedPhasor defaultMerge unityTransfer 0 [1, 7]) = 4 ∧
    Real.sqrt (np_mean (([1, 7] : List ℂ).map (fun c => Complex.abs c ^ 2))) *
      unityTransfer 0 = 5 ∧
    (4 : ℝ) ≠ 5 := by
  have habs : ([1, 7] : List ℂ).map Complex.abs = [1, 7] := by
    simp [Complex.abs_ofNat]
  have hmean : np_mean [(1 : ℝ), 7] = 4 := by
    unfold np_mean
    norm_num
  have hmeanC : np_meanC [(1 : ℂ), 7] = ((4 : ℝ) : ℂ) := by
    unfold np_meanC
    push_cast
    norm_num
  have harg : (np_meanC [(1 : ℂ), 7]).arg = 0 := by
    rw [hmeanC]
    exact Complex.arg_ofReal_of_nonneg (by norm_num)
  refine ⟨?_, ?_, by norm_num⟩
  · rw [mergedPhasor_default_eq, habs, hmean, harg]
    simp [Complex.abs_ofReal, unityTransfer]
  · have hsq : ([1, 7] : List ℂ).map (fun c => Complex.abs c ^ 2) = [1, 49] := by
      simp [Complex.abs_ofNat]
      norm_num
    rw [hsq]
    have h25 : np_mean [(1 : ℝ), 49] = 25 := by
      unfold np_mean
      norm_num
    rw [h25, show (25 : ℝ) = 5 ^ 2 by norm_num,
      Real.sqrt_sq (by norm_num : (0 : ℝ) ≤ 5)]
    norm_num [unityTransfer]

/-! ## Roots of unity and the convolution theorem -/

theorem except_bind_ok {ε α β : Type} (x : α) (g : α → Except ε β) :
    (Except.ok x >>= g : Except ε β) = g x := rfl

theorem except_bind_error {ε α β : Type} (e : ε) (g : α → Except ε β) :
    ((Except.error e : Except ε α) >>= g) = Except.error e := rfl

theorem zeta_ne_zero (n : ℕ) : zeta n ≠ 0 := Complex.exp_ne_zero _

theorem zeta_prim (n : ℕ) (hn : n ≠ 0) : IsPrimitiveRoot (zeta n) n :=
  Complex.isPrimitiveRoot_exp n hn

theorem zeta_zpow_eq_one_iff (n : ℕ) (hn : n ≠ 0) (t : ℤ) :
    zeta n ^ t = 1 ↔ (n : ℤ) ∣ t :=
  (zeta_prim n hn).zpow_eq_one_iff_dvd t

theorem zeta_conj_zpow (n : ℕ) (t : ℤ) :
    (starRingEnd ℂ) (zeta n ^ t) = zeta n ^ (-t) := by
  rw [map_zpow₀]
  have hconj : (starRingEnd ℂ) (2 * (Real.pi : ℂ) * Complex.I / (n : ℂ)) =
      -(2 * (Real.pi : ℂ) * Complex.I / (n : ℂ)) := by
    rw [map_div₀, map_mul, map_mul]
    simp only [map_ofNat, Complex.conj_ofReal, Complex.conj_I, map_natCast]
    ring
  have h : (starRingEnd ℂ) (zeta n) = (zeta n)⁻¹ := by
    unfold zeta
    rw [← Complex.exp_conj, hconj, Complex.exp_neg]
  rw [h, inv_zpow, ← zpow_neg]

theorem zeta_sum_orth (n : ℕ) (hn : n ≠ 0) (t : ℤ) :
    ∑ j in Finset.range n, zeta n ^ ((j : ℤ) * t) =
      if (n : ℤ) ∣ t then (n : ℂ) else 0 := by
  have hterm : ∀ j : ℕ, zeta n ^ ((j : ℤ) * t) = (zeta n ^ t) ^ j := by
    intro j
    rw [mul_comm, zpow_mul, zpow_natCast]
  rw [Finset.sum_congr rfl (fun j _ => hterm j)]
  by_cases h : (n : ℤ) ∣ t
  · rw [if_pos h]
    have h1 : zeta n ^ t = 1 := (zeta_zpow_eq_one_iff n hn t).mpr h
    simp [h1]
  · rw [if_neg h]
    have h1 : zeta n ^ t ≠ 1 := fun hc => h ((zeta_zpow_eq_one_iff n hn t).mp hc)
    rw [geom_sum_eq h1]
    have h2 : (zeta n ^ t) ^ n = 1 := by
      rw [← zpow_natCast, ← zpow_mul, mul_comm, zpow_mul, zpow_natCast,
        (zeta_prim n hn).pow_eq_one, one_zpow]
    rw [h2, sub_self, zero_div]

theorem lt_lt_eq_of_dvd_sub {n a b : ℕ} (ha : a < n) (hb : b < n)
    (h : (n : ℤ) ∣ (a : ℤ) - (b : ℤ)) : a = b := by
  rcases h with ⟨c, hc⟩
  have hn0 : (0 : ℤ) < n := by
    have : 0 < n := lt_of_le_of_lt (Nat.zero_le a) ha
    exact_mod_cast this
  rcases lt_trichotomy c 0 with h1 | h1 | h1
  · have h2 : (n : ℤ) * c ≤ (n : ℤ) * (-1) :=
      mul_le_mul_of_nonneg_left (by omega) (le_of_lt hn0)
    rw [← hc] at h2
    omega
  · subst h1
    rw [mul_zero] at hc
    omega
  · have h2 : (n : ℤ) * 1 ≤ (n : ℤ) * c :=
      mul_le_mul_of_nonneg_left (by omega) (le_of_lt hn0)
    rw [← hc] at h2
    omega

theorem fin_sub_val_dvd {n : ℕ} [NeZero n] (a b : Fin n) :
    (n : ℤ) ∣ (((a - b : Fin n) : ℕ) : ℤ) - (((a : ℕ) : ℤ) - ((b : ℕ) : ℤ)) := by
  have h := Fin.coe_int_sub_eq_mod a b
  have h2 : (n : ℤ) ∣ (((a : ℕ) : ℤ) - ((b : ℕ) : ℤ)) -
      (((a : ℕ) : ℤ) - ((b : ℕ) : ℤ)) % n := Int.dvd_sub_of_emod_eq rfl
  have h3 := dvd_neg.mpr h2
  rw [neg_sub] at h3
  calc (n : ℤ) ∣ (((a : ℕ) : ℤ) - ((b : ℕ) : ℤ)) % n -
      (((a : ℕ) : ℤ) - ((b : ℕ) : ℤ)) := h3
    _ = (((a - b : Fin n) : ℕ) : ℤ) - (((a : ℕ) : ℤ) - ((b : ℕ) : ℤ)) := by
      rw [h]

theorem fin_dvd_iff_eq {n : ℕ} [NeZero n] (m p k : Fin n) :
    (n : ℤ) ∣ ((p : ℕ) : ℤ) + ((k : ℕ) : ℤ) - ((m : ℕ) : ℤ) ↔ p = m - k := by
  have hsub := fin_sub_val_dvd m k
  constructor
  · intro h
    have h2 : (n : ℤ) ∣ ((p : ℕ) : ℤ) - (((m - k : Fin n) : ℕ) : ℤ) := by
      have h3 := dvd_sub h hsub
      convert h3 using 1
      ring
    exact Fin.ext (lt_lt_eq_of_dvd_sub p.isLt (m - k).isLt h2)
  · intro h
    subst h
    convert hsub using 1
    ring

/-! ## Autocorrelation analysis -/

theorem sum_shift_sq {n : ℕ} [NeZero n] (w : Fin n → ℝ) (k : Fin n) :
    ∑ m, (w (m - k)) ^ 2 = ∑ m, (w m) ^ 2 :=
  Fintype.sum_equiv (Equiv.subRight k) _ _ (fun x => by simp [Equiv.subRight])

theorem autocorr_zero {n : ℕ} [NeZero n] (w : Fin n → ℝ) :
    autocorr w 0 = ∑ m, (w m) ^ 2 := by
  unfold autocorr
  exact Finset.sum_congr rfl (fun m _ => by rw [sub_zero, sq])

theorem autocorr_sub_expand {n : ℕ} [NeZero n] (w : Fin n → ℝ) (k : Fin n) :
    ∑ m, (w m - w (m - k)) ^ 2 = 2 * autocorr w 0 - 2 * autocorr w k := by
  have h1 : ∀ m ∈ Finset.univ (α := Fin n), (w m - w (m - k)) ^ 2 =
      ((w m) ^ 2 + (w (m - k)) ^ 2) - 2 * (w m * w (m - k)) := fun m _ => by ring
  rw [Finset.sum_congr rfl h1, Finset.sum_sub_distrib, Finset.sum_add_distrib,
    sum_shift_sq, ← Finset.mul_sum, autocorr_zero]
  unfold autocorr
  ring

theorem autocorr_add_expand {n : ℕ} [NeZero n] (w : Fin n → ℝ) (k : Fin n) :
    ∑ m, (w m + w (m - k)) ^ 2 = 2 * autocorr w 0 + 2 * autocorr w k := by
  have h1 : ∀ m ∈ Finset.univ (α := Fin n), (w m + w (m - k)) ^ 2 =
      ((w m) ^ 2 + (w (m - k)) ^ 2) + 2 * (w m * w (m - k)) := fun m _ => by ring
  rw [Finset.sum_congr rfl h1, Finset.sum_add_distrib, Finset.sum_add_distrib,
    sum_shift_sq, ← Finset.mul_sum, autocorr_zero]
  unfold autocorr
  ring

theorem autocorr_le_max {n : ℕ} [NeZero n] (w : Fin n → ℝ) (k : Fin n) :
    autocorr w k ≤ autocorr w 0 := by
  have h := autocorr_sub_expand w k
  have h2 : 0 ≤ ∑ m, (w m - w (m - k)) ^ 2 :=
    Finset.sum_nonneg (fun m _ => sq_nonneg _)
  linarith

theorem neg_max_le_autocorr {n : ℕ} [NeZero n] (w : Fin n → ℝ) (k : Fin n) :
    -autocorr w 0 ≤ autocorr w k := by
  have h := autocorr_add_expand w k
  have h2 : 0 ≤ ∑ m, (w m + w (m - k)) ^ 2 :=
    Finset.sum_nonneg (fun m _ => sq_nonneg _)
  linarith

theorem abs_autocorr_le {n : ℕ} [NeZero n] (w : Fin n → ℝ) (k : Fin n) :
    |autocorr w k| ≤ autocorr w 0 :=
  abs_le.mpr ⟨neg_max_le_autocorr w k, autocorr_le_max w k⟩

theorem autocorr_zero_nonneg {n : ℕ} [NeZero n] (w : Fin n → ℝ) :
    0 ≤ autocorr w 0 := by
  rw [autocorr_zero]
  exact Finset.sum_nonneg (fun m _ => sq_nonneg _)

theorem autocorr_eq_max_shift {n : ℕ} [NeZero n] (w : Fin n → ℝ) (k : Fin n)
    (h : autocorr w k = autocorr w 0) : ∀ m, w (m - k) = w m := by
  have hsum : ∑ m, (w m - w (m - k)) ^ 2 = 0 := by
    rw [autocorr_sub_expand, h]; ring
  intro m
  have h2 := (Finset.sum_eq_zero_iff_of_nonneg
    (fun m _ => sq_nonneg (w m - w (m - k)))).mp hsum m (Finset.mem_univ m)
  have h3 : w m - w (m - k) = 0 := by
    have := sq_eq_zero_iff.mp h2
    linarith
  linarith

theorem autocorr_eq_neg_max_shift {n : ℕ} [NeZero n] (w : Fin n → ℝ) (k : Fin n)
    (h : autocorr w k = -autocorr w 0) : ∀ m, w (m - k) = -(w m) := by
  have hsum : ∑ m, (w m + w (m - k)) ^ 2 = 0 := by
    rw [autocorr_add_expand, h]; ring
  intro m
  have h2 := (Finset.sum_eq_zero_iff_of_nonneg
    (fun m _ => sq_nonneg (w m + w (m - k)))).mp hsum m (Finset.mem_univ m)
  have h3 : w m + w (m - k) = 0 := by
    have := sq_eq_zero_iff.mp h2
    linarith
  linarith

theorem autocorr_zero_pos {n : ℕ} [NeZero n] (w : Fin n → ℝ) (hw : w ≠ 0) :
    0 < autocorr w 0 := by
  rw [autocorr_zero]
  obtain ⟨i, hi⟩ := Function.ne_iff.mp hw
  have h2 : (w i) ^ 2 ≠ 0 := fun hc => hi (by simpa using sq_eq_zero_iff.mp hc)
  exact Finset.sum_pos' (fun m _ => sq_nonneg _)
    ⟨i, Finset.mem_univ i, (sq_nonneg (w i)).lt_of_ne (Ne.symm h2)⟩

theorem shift_one_const {n : ℕ} [NeZero n] (w : Fin n → ℝ)
    (h : ∀ m, w (m - 1) = w m) : ∀ i j : Fin n, w i = w j := by
  have hc : ∀ (c : ℕ) (m : Fin n), w (m - (c : Fin n)) = w m := by
    intro c
    induction c with
    | zero => intro m; simp
    | succ c ih =>
      intro m
      have hcast : ((c + 1 : ℕ) : Fin n) = (c : Fin n) + 1 := by push_cast; ring
      rw [hcast, sub_add_eq_sub_sub]
      exact (h (m - (c : Fin n))).trans (ih m)
  intro i j
  have h2 : i - (((i - j : Fin n) : ℕ) : Fin n) = j := by
    rw [Fin.cast_val_eq_self (i - j)]
    exact sub_sub_cancel i j
  calc w i = w (i - (((i - j : Fin n) : ℕ) : Fin n)) := (hc _ i).symm
    _ = w j := by rw [h2]

theorem autocorr_one_lt {n : ℕ} [NeZero n] (w : Fin n → ℝ)
    (h : ∃ i j, w i ≠ w j) : autocorr w 1 < autocorr w 0 := by
  rcases lt_or_eq_of_le (autocorr_le_max w 1) with hlt | heq
  · exact hlt
  · exfalso
    obtain ⟨i, j, hij⟩ := h
    exact hij (shift_one_const w (autocorr_eq_max_shift w 1 heq) i j)

/-! ## np.argmax semantics -/

theorem get_ofFn_val {n : ℕ} (G : Fin n → ℝ) (k : ℕ)
    (hk : k < (List.ofFn G).length) :
    (List.ofFn G).get ⟨k, hk⟩ = G ⟨k, by simpa using hk⟩ := by
  rw [List.get_eq_getElem, List.getElem_ofFn]

theorem np_argmaxL_ofFn_set {n : ℕ} (G : Fin n → ℝ) :
    np_argmaxL (List.ofFn G) =
      sInf {j | ∃ h : j < n, ∀ i : Fin n, G i ≤ G ⟨j, h⟩} := by
  unfold np_argmaxL
  congr 1
  ext j
  constructor
  · rintro ⟨hj, hm⟩
    refine ⟨by simpa using hj, ?_⟩
    intro i
    have h2 := hm i.val (by simp)
    rw [get_ofFn_val, get_ofFn_val] at h2
    simp at h2
    exact h2
  · rintro ⟨hj, hm⟩
    refine ⟨by simpa using hj, ?_⟩
    intro k hk
    rw [get_ofFn_val, get_ofFn_val]
    exact hm ⟨k, by simpa using hk⟩

theorem argmax_set_mem {n : ℕ} (hn : 0 < n) (G : Fin n → ℝ) :
    sInf {j | ∃ h : j < n, ∀ i : Fin n, G i ≤ G ⟨j, h⟩} ∈
      {j | ∃ h : j < n, ∀ i : Fin n, G i ≤ G ⟨j, h⟩} := by
  apply Nat.sInf_mem
  haveI : Nonempty (Fin n) := ⟨⟨0, hn⟩⟩
  obtain ⟨b, -, hb⟩ := Finset.exists_max_image Finset.univ G Finset.univ_nonempty
  exact ⟨b.val, b.isLt, fun i => by simpa using hb i (Finset.mem_univ i)⟩

theorem argmax_set_eq_zero {n : ℕ} (hn : 0 < n) (G : Fin n → ℝ)
    (h : ∀ j : Fin n, G j ≤ G ⟨0, hn⟩) :
    sInf {j | ∃ h : j < n, ∀ i : Fin n, G i ≤ G ⟨j, h⟩} = 0 :=
  Nat.sInf_eq_zero.mpr (Or.inl ⟨hn, h⟩)

theorem argmax_set_ne_zero {n : ℕ} (hn : 0 < n) (G : Fin n → ℝ)
    (h : ∃ j : Fin n, G ⟨0, hn⟩ < G j) :
    sInf {j | ∃ h : j < n, ∀ i : Fin n, G i ≤ G ⟨j, h⟩} ≠ 0 := by
  intro hc
  obtain ⟨hlt, hm⟩ := argmax_set_mem hn G
  obtain ⟨j, hj⟩ := h
  have h2 := hm j
  have h4 : (⟨sInf {j | ∃ h : j < n, ∀ i : Fin n, G i ≤ G ⟨j, h⟩}, hlt⟩ : Fin n) =
      ⟨0, hn⟩ := Fin.ext hc
  rw [h4] at h2
  exact absurd h2 (not_le.mpr hj)

theorem argmax_set_congr {n : ℕ} (G H : Fin n → ℝ)
    (h : ∀ j : Fin n, (∀ i, G i ≤ G j) ↔ (∀ i, H i ≤ H j)) :
    sInf {j | ∃ hj : j < n, ∀ i : Fin n, G i ≤ G ⟨j, hj⟩} =
    sInf {j | ∃ hj : j < n, ∀ i : Fin n, H i ≤ H ⟨j, hj⟩} := by
  congr 1
  ext j
  constructor
  · rintro ⟨hj, hm⟩
    exact ⟨hj, (h ⟨j, hj⟩).mp hm⟩
  · rintro ⟨hj, hm⟩
    exact ⟨hj, (h ⟨j, hj⟩).mpr hm⟩

/-! ## The convolution theorem for correlate -/

theorem dft_correlate_key {n : ℕ} [NeZero n] (f g : Fin n → ℝ) (k : ℕ)
    (hk : k < n) :
    (∑ j in Finset.range n,
        ((∑ m : Fin n, (f m : ℂ) * zeta n ^ (-((j : ℤ) * ((m : ℕ) : ℤ)))) *
          (starRingEnd ℂ)
            (∑ p : Fin n, (g p : ℂ) * zeta n ^ (-((j : ℤ) * ((p : ℕ) : ℤ))))) *
          zeta n ^ ((j : ℤ) * (k : ℤ))) / n
      = ((∑ m : Fin n, f m * g (m - ⟨k, hk⟩) : ℝ) : ℂ) := by
  have hn : n ≠ 0 := NeZero.ne n
  have hnC : (n : ℂ) ≠ 0 := Nat.cast_ne_zero.mpr hn
  have hconj : ∀ j : ℕ,
      (starRingEnd ℂ)
          (∑ p : Fin n, (g p : ℂ) * zeta n ^ (-((j : ℤ) * ((p : ℕ) : ℤ)))) =
      ∑ p : Fin n, (g p : ℂ) * zeta n ^ ((j : ℤ) * ((p : ℕ) : ℤ)) := by
    intro j
    rw [map_sum]
    refine Finset.sum_congr rfl (fun p _ => ?_)
    rw [map_mul, Complex.conj_ofReal, zeta_conj_zpow, neg_neg]
  have hsummand : ∀ j ∈ Finset.range n,
      ((∑ m : Fin n, (f m : ℂ) * zeta n ^ (-((j : ℤ) * ((m : ℕ) : ℤ)))) *
        (starRingEnd ℂ)
          (∑ p : Fin n, (g p : ℂ) * zeta n ^ (-((j : ℤ) * ((p : ℕ) : ℤ))))) *
        zeta n ^ ((j : ℤ) * (k : ℤ)) =
      ∑ m : Fin n, ∑ p : Fin n, ((f m : ℂ) * (g p : ℂ)) *
        zeta n ^ ((j : ℤ) * (((p : ℕ) : ℤ) + (k : ℤ) - ((m : ℕ) : ℤ))) := by
    intro j _
    rw [hconj j, Finset.sum_mul_sum, Finset.sum_mul]
    refine Finset.sum_congr rfl (fun m _ => ?_)
    rw [Finset.sum_mul]
    refine Finset.sum_congr rfl (fun p _ => ?_)
    have he : (j : ℤ) * (((p : ℕ) : ℤ) + (k : ℤ) - ((m : ℕ) : ℤ)) =
        (-((j : ℤ) * ((m : ℕ) : ℤ))) + ((j : ℤ) * ((p : ℕ) : ℤ)) +
          ((j : ℤ) * (k : ℤ)) := by ring
    rw [he, zpow_add₀ (zeta_ne_zero n), zpow_add₀ (zeta_ne_zero n)]
    ring
  rw [Finset.sum_congr rfl hsummand]
  have hswap : ∑ j in Finset.range n, ∑ m : Fin n, ∑ p : Fin n,
        ((f m : ℂ) * (g p : ℂ)) *
          zeta n ^ ((j : ℤ) * (((p : ℕ) : ℤ) + (k : ℤ) - ((m : ℕ) : ℤ))) =
      ∑ m : Fin n, ∑ p : Fin n, ((f m : ℂ) * (g p : ℂ)) *
        ∑ j in Finset.range n,
          zeta n ^ ((j : ℤ) * (((p : ℕ) : ℤ) + (k : ℤ) - ((m : ℕ) : ℤ))) := by
    rw [Finset.sum_comm]
    refine Finset.sum_congr rfl (fun m _ => ?_)
    rw [Finset.sum_comm]
    refine Finset.sum_congr rfl (fun p _ => ?_)
    rw [Finset.mul_sum]
  rw [hswap]
  have hcollapse : ∀ m ∈ Finset.univ (α := Fin n),
      ∑ p : Fin n, ((f m : ℂ) * (g p : ℂ)) *
        ∑ j in Finset.range n,
          zeta n ^ ((j : ℤ) * (((p : ℕ) : ℤ) + (k : ℤ) - ((m : ℕ) : ℤ))) =
      ((f m : ℂ) * (g (m - ⟨k, hk⟩) : ℂ)) * n := by
    intro m _
    have horth : ∀ p ∈ Finset.univ (α := Fin n),
        ((f m : ℂ) * (g p : ℂ)) *
          ∑ j in Finset.range n,
            zeta n ^ ((j : ℤ) * (((p : ℕ) : ℤ) + (k : ℤ) - ((m : ℕ) : ℤ))) =
        ((f m : ℂ) * (g p : ℂ)) *
          (if (n : ℤ) ∣ (((p : ℕ) : ℤ) + (k : ℤ) - ((m : ℕ) : ℤ))
           then (n : ℂ) else 0) := by
      intro p _
      rw [zeta_sum_orth n hn]
    rw [Finset.sum_congr rfl horth]
    rw [Finset.sum_eq_single (m - (⟨k, hk⟩ : Fin n))]
    · rw [if_pos ((fin_dvd_iff_eq m (m - ⟨k, hk⟩) ⟨k, hk⟩).mpr rfl)]
    · intro p _ hp
      rw [if_neg, mul_zero]
      intro hc
      exact hp ((fin_dvd_iff_eq m p ⟨k, hk⟩).mp hc)
    · intro hmem
      exact absurd (Finset.mem_univ _) hmem
  rw [Finset.sum_congr rfl hcollapse, ← Finset.sum_mul,
    mul_div_cancel_right₀ _ hnC]
  rw [Complex.ofReal_sum]
  refine Finset.sum_congr rfl (fun m _ => ?_)
  rw [Complex.ofReal_mul]

/-! ## List-level bridge from the fft pipeline to the time domain -/

theorem dftList_length (l : List ℝ) : (dftList l).length = l.length := by
  unfold dftList
  rw [List.length_map, List.length_range]

theorem idftList_length (l : List ℂ) : (idftList l).length = l.length := by
  unfold idftList
  rw [List.length_map, List.length_range]

theorem list_eq_of_getD {α : Type} (d : α) (a b : List α)
    (hlen : a.length = b.length)
    (h : ∀ i, i < a.length → a.getD i d = b.getD i d) : a = b := by
  apply List.ext_getElem hlen
  intro i h1 h2
  have h3 := h i h1
  rw [List.getD_eq_getElem?_getD, List.getElem?_eq_getElem h1,
    List.getD_eq_getElem?_getD, List.getElem?_eq_getElem h2] at h3
  simpa using h3

theorem map_getD {α β : Type} (F : α → β) (l : List α) (i : ℕ)
    (hi : i < l.length) (da : α) (d : β) :
    (l.map F).getD i d = F (l.getD i da) := by
  rw [List.getD_eq_getElem?_getD, List.getElem?_map,
    List.getElem?_eq_getElem hi, List.getD_eq_getElem?_getD,
    List.getElem?_eq_getElem hi]
  rfl

theorem range_map_getD {β : Type} (B : ℕ → β) (n i : ℕ) (hi : i < n) (d : β) :
    ((List.range n).map B).getD i d = B i := by
  rw [map_getD B _ i (by simpa using hi) 0]
  congr 1
  rw [List.getD_eq_getElem?_getD, List.getElem?_range hi]
  rfl

theorem zipWith_getD {α β γ : Type} (F : α → β → γ) (a : List α) (b : List β)
    (i : ℕ) (hia : i < a.length) (hib : i < b.length) (da : α) (db : β)
    (d : γ) :
    (List.zipWith F a b).getD i d = F (a.getD i da) (b.getD i db) := by
  rw [List.getD_eq_getElem?_getD, List.getElem?_zipWith,
    List.getElem?_eq_getElem hia, List.getElem?_eq_getElem hib,
    List.getD_eq_getElem?_getD, List.getElem?_eq_getElem hia,
    List.getD_eq_getElem?_getD, List.getElem?_eq_getElem hib]
  rfl

theorem ofFn_getD {α : Type} {n : ℕ} (F : Fin n → α) (m : ℕ) (d : α)
    (h : m < n) : (List.ofFn F).getD m d = F ⟨m, h⟩ := by
  rw [List.getD_eq_getElem?_getD,
    List.getElem?_eq_getElem (by simpa using h)]
  simp

theorem dftList_ofFn_getD {n : ℕ} (f : Fin n → ℝ) (j : ℕ) (hj : j < n) :
    (dftList (List.ofFn f)).getD j 0 =
      ∑ m : Fin n, (f m : ℂ) * zeta n ^ (-((j : ℤ) * ((m : ℕ) : ℤ))) := by
  unfold dftList
  rw [List.length_ofFn]
  rw [range_map_getD _ n j hj]
  rw [← Fin.sum_univ_eq_sum_range (fun m =>
    ((List.ofFn f).getD m 0 : ℂ) * zeta n ^ (-((j : ℤ) * (m : ℤ))))]
  refine Finset.sum_congr rfl (fun m _ => ?_)
  rw [ofFn_getD f m.val 0 m.isLt]

theorem idftList_getD (l : List ℂ) (k : ℕ) (hk : k < l.length) :
    (idftList l).getD k 0 =
      (∑ j in Finset.range l.length,
        l.getD j 0 * zeta l.length ^ ((j : ℤ) * (k : ℤ))) / l.length := by
  unfold idftList
  exact range_map_getD _ _ _ hk _

theorem correlate_ofFn {n : ℕ} (hn : 0 < n) (f g : Fin n → ℝ) :
    correlate (NDArray.mk1 (List.ofFn f)) (NDArray.mk1 (List.ofFn g)) =
      Except.ok (List.ofFn (fun k : Fin n => ∑ m : Fin n, f m * g (m - k))) := by
  haveI : NeZero n := ⟨hn.ne'⟩
  unfold correlate
  rw [if_neg]
  swap
  · push_neg
    exact ⟨by simp [NDArray.mk1], by simp [NDArray.mk1]⟩
  have hdataf : (NDArray.mk1 (List.ofFn f)).data = List.ofFn f := rfl
  have hdatag : (NDArray.mk1 (List.ofFn g)).data = List.ofFn g := rfl
  rw [hdataf, hdatag]
  have hf : np_fft (List.ofFn f) = Except.ok (dftList (List.ofFn f)) := by
    unfold np_fft
    rw [if_neg (by simp [hn.ne'])]
  have hg : np_fft (List.ofFn g) = Except.ok (dftList (List.ofFn g)) := by
    unfold np_fft
    rw [if_neg (by simp [hn.ne'])]
  rw [hf, except_bind_ok, hg, except_bind_ok]
  set Z := List.zipWith (fun x y => x * (starRingEnd ℂ) y)
    (dftList (List.ofFn f)) (dftList (List.ofFn g)) with hZ
  have hzlen : Z.length = n := by
    rw [hZ, List.length_zipWith, dftList_length, dftList_length]
    simp
  have hz : np_ifft Z = Except.ok (idftList Z) := by
    unfold np_ifft
    rw [if_neg (by rw [hzlen]; exact hn.ne')]
  rw [hz, except_bind_ok]
  congr 1
  apply list_eq_of_getD 0
  · rw [List.length_map, idftList_length, hzlen, List.length_ofFn]
  · intro k hk1
    have hk : k < n := by
      rw [List.length_map, idftList_length, hzlen] at hk1
      exact hk1
    rw [map_getD Complex.re _ k (by rw [idftList_length, hzlen]; exact hk) 0]
    rw [idftList_getD Z k (by rw [hzlen]; exact hk), hzlen]
    have hterm : ∀ j ∈ Finset.range n,
        Z.getD j 0 * zeta n ^ ((j : ℤ) * (k : ℤ)) =
        ((∑ m : Fin n, (f m : ℂ) * zeta n ^ (-((j : ℤ) * ((m : ℕ) : ℤ)))) *
          (starRingEnd ℂ)
            (∑ p : Fin n, (g p : ℂ) * zeta n ^ (-((j : ℤ) * ((p : ℕ) : ℤ))))) *
          zeta n ^ ((j : ℤ) * (k : ℤ)) := by
      intro j hj
      have hjn : j < n := Finset.mem_range.mp hj
      rw [hZ, zipWith_getD _ _ _ j (by rw [dftList_length]; simpa using hjn)
        (by rw [dftList_length]; simpa using hjn) 0 0]
      rw [dftList_ofFn_getD f j hjn, dftList_ofFn_getD g j hjn]
    rw [Finset.sum_congr rfl hterm, dft_correlate_key f g k hk,
      Complex.ofReal_re, ofFn_getD _ k 0 hk]

/-! ## correlate_offset and align_waves analysis -/

theorem correlate_offset_ofFn {n : ℕ} (hn : 0 < n) (f g : Fin n → ℝ) :
    correlate_offset (NDArray.mk1 (List.ofFn f)) (NDArray.mk1 (List.ofFn g)) =
      (if np_argmaxL ((List.ofFn (fun k : Fin n =>
            ∑ m : Fin n, f m * g (m - k))).map (fun x => |x|)) ≠
          np_argmaxL (List.ofFn (fun k : Fin n => ∑ m : Fin n, f m * g (m - k)))
       then Except.error "seems like you need to invert wave"
       else Except.ok (np_argmaxL (List.ofFn (fun k : Fin n =>
          ∑ m : Fin n, f m * g (m - k))))) := by
  unfold correlate_offset
  rw [correlate_ofFn hn f g, except_bind_ok]

theorem fin_zero_mk {n : ℕ} [NeZero n] (hn : 0 < n) :
    (⟨0, hn⟩ : Fin n) = 0 := Fin.ext (by simp)

theorem correlate_offset_self {n : ℕ} (hn : 0 < n) (w : Fin n → ℝ) :
    correlate_offset (NDArray.mk1 (List.ofFn w)) (NDArray.mk1 (List.ofFn w)) =
      Except.ok 0 := by
  haveI : NeZero n := ⟨hn.ne'⟩
  rw [correlate_offset_ofFn hn w w]
  have hC : (fun k : Fin n => ∑ m : Fin n, w m * w (m - k)) = autocorr w := by
    funext k
    rfl
  rw [hC]
  have h1 : np_argmaxL (List.ofFn (autocorr w)) = 0 := by
    rw [np_argmaxL_ofFn_set]
    apply argmax_set_eq_zero hn
    intro j
    rw [fin_zero_mk hn]
    exact autocorr_le_max w j
  have h2 : np_argmaxL ((List.ofFn (autocorr w)).map (fun x => |x|)) = 0 := by
    rw [List.map_ofFn, np_argmaxL_ofFn_set]
    apply argmax_set_eq_zero hn
    intro j
    show |autocorr w j| ≤ |autocorr w ⟨0, hn⟩|
    rw [fin_zero_mk hn, abs_of_nonneg (autocorr_zero_nonneg w)]
    exact abs_autocorr_le w j
  rw [h1, h2]
  simp

theorem correlate_offset_const_neg (n : ℕ) (hn : 0 < n) (c : ℝ) :
    correlate_offset (NDArray.mk1 (List.ofFn (fun _ : Fin n => c)))
      (NDArray.mk1 (List.ofFn (fun _ : Fin n => -c))) = Except.ok 0 := by
  haveI : NeZero n := ⟨hn.ne'⟩
  rw [correlate_offset_ofFn hn (fun _ : Fin n => c) (fun _ : Fin n => -c)]
  have h1 : np_argmaxL (List.ofFn (fun k : Fin n =>
      ∑ m : Fin n, (fun _ : Fin n => c) m *
        (fun _ : Fin n => -c) (m - k))) = 0 := by
    rw [np_argmaxL_ofFn_set]
    exact argmax_set_eq_zero hn _ (fun j => le_refl _)
  have h2 : np_argmaxL ((List.ofFn (fun k : Fin n =>
      ∑ m : Fin n, (fun _ : Fin n => c) m *
        (fun _ : Fin n => -c) (m - k))).map (fun x => |x|)) = 0 := by
    rw [List.map_ofFn, np_argmaxL_ofFn_set]
    exact argmax_set_eq_zero hn _ (fun j => le_refl _)
  rw [h1, h2]
  simp

/-- C3 (corrected): the phase-inversion check raises exactly when the two
argmax positions differ; against the exact negation this happens for every
non-constant waveform, but a nonzero constant waveform slips through: there
the correlation sequence is constant, both argmaxes are 0, and the offset 0
is returned instead of an error. -/
theorem C3_phase_inversion :
    (∀ (a b : NDArray) (corrs : List ℝ), correlate a b = Except.ok corrs →
      np_argmaxL (corrs.map (fun x => |x|)) ≠ np_argmaxL corrs →
      ∃ e, correlate_offset a b = Except.error e) ∧
    (∀ (n : ℕ) (_hn : 0 < n) (w : Fin n → ℝ), (∃ i j, w i ≠ w j) →
      ∃ e, correlate_offset (NDArray.mk1 (List.ofFn w))
        (NDArray.mk1 (List.ofFn (fun i => -(w i)))) = Except.error e) ∧
    (∀ (n : ℕ) (_hn : 0 < n) (c : ℝ),
      correlate_offset (NDArray.mk1 (List.ofFn (fun _ : Fin n => c)))
        (NDArray.mk1 (List.ofFn (fun _ : Fin n => -c))) = Except.ok 0) := by
  refine ⟨?_, ?_, ?_⟩
  · intro a b corrs hcorr hne
    unfold correlate_offset
    rw [hcorr, except_bind_ok, if_pos hne]
    exact ⟨_, rfl⟩
  · intro n hn w hne
    haveI : NeZero n := ⟨hn.ne'⟩
    rw [correlate_offset_ofFn hn w (fun i => -(w i))]
    have hC : (fun k : Fin n => ∑ m : Fin n, w m * (fun i => -(w i)) (m - k)) =
        (fun k : Fin n => -(autocorr w k)) := by
      funext k
      show ∑ m : Fin n, w m * (-(w (m - k))) = -(autocorr w k)
      unfold autocorr
      rw [← Finset.sum_neg_distrib]
      exact Finset.sum_congr rfl (fun m _ => by ring)
    rw [hC]
    have hlt1 : autocorr w 1 < autocorr w 0 := autocorr_one_lt w hne
    have habs : np_argmaxL ((List.ofFn (fun k : Fin n =>
        -(autocorr w k))).map (fun x => |x|)) = 0 := by
      rw [List.map_ofFn, np_argmaxL_ofFn_set]
      apply argmax_set_eq_zero hn
      intro j
      show |-(autocorr w j)| ≤ |-(autocorr w ⟨0, hn⟩)|
      rw [fin_zero_mk hn, abs_neg, abs_neg,
        abs_of_nonneg (autocorr_zero_nonneg w)]
      exact abs_autocorr_le w j
    have hsgn : np_argmaxL (List.ofFn (fun k : Fin n => -(autocorr w k))) ≠ 0 := by
      rw [np_argmaxL_ofFn_set]
      apply argmax_set_ne_zero hn
      refine ⟨1, ?_⟩
      rw [fin_zero_mk hn]
      exact neg_lt_neg hlt1
    rw [if_pos (by rw [habs]; exact fun hc => hsgn hc.symm)]
    exact ⟨_, rfl⟩
  · intro n hn c
    exact correlate_offset_const_neg n hn c

theorem C3_phase_inversion_witness :
    (∃ e, correlate_offset (NDArray.mk1 (List.ofFn (![1, 0] : Fin 2 → ℝ)))
      (NDArray.mk1 (List.ofFn (fun i => -(![1, 0] : Fin 2 → ℝ) i))) =
        Except.error e) ∧
    correlate_offset (NDArray.mk1 (List.ofFn (fun _ : Fin 2 => (1 : ℝ))))
      (NDArray.mk1 (List.ofFn (fun _ : Fin 2 => -(1 : ℝ)))) = Except.ok 0 :=
  ⟨C3_phase_inversion.2.1 2 (by norm_num) ![1, 0]
     ⟨0, 1, by norm_num⟩,
   C3_phase_inversion.2.2 2 (by norm_num) 1⟩

theorem np_roll_length (l : List ℝ) (k : ℕ) :
    (np_roll l k).length = l.length := by
  unfold np_roll
  rw [List.length_map, List.length_range]

theorem np_roll_ofFn {n : ℕ} [NeZero n] (G : Fin n → ℝ) (k : ℕ) :
    np_roll (List.ofFn G) k =
      List.ofFn (fun i : Fin n => G (i - (k : Fin n))) := by
  have hn : 0 < n := Nat.pos_of_ne_zero (NeZero.ne n)
  apply list_eq_of_getD 0
  · rw [np_roll_length, List.length_ofFn, List.length_ofFn]
  · intro i hi
    have hi' : i < n := by
      rw [np_roll_length, List.length_ofFn] at hi
      exact hi
    unfold np_roll
    rw [List.length_ofFn, range_map_getD _ n i hi']
    rw [ofFn_getD G _ 0 (Nat.mod_lt _ hn), ofFn_getD _ i 0 hi']
    congr 1
    apply Fin.ext
    rw [Fin.sub_def]
    show (i + n - k % n) % n = (n - ((k : Fin n) : ℕ) + i) % n
    have hval : ((k : Fin n) : ℕ) = k % n := Fin.val_natCast k n
    rw [hval]
    congr 1
    have := Nat.mod_lt k hn
    omega

theorem align_rotation {n : ℕ} (hn : 0 < n) (w : Fin n → ℝ) (k : ℕ)
    (h : ∀ l : Fin n, ¬ (∀ i, w (i - l) = -(w i))) :
    align_waves [List.ofFn w, np_roll (List.ofFn w) k] =
      Except.ok [List.ofFn w, List.ofFn w] := by
  haveI : NeZero n := ⟨hn.ne'⟩
  have hw : w ≠ 0 := by
    intro hc
    apply h 0
    intro i
    rw [hc]
    simp
  have hnoneg : ∀ l : Fin n, autocorr w l ≠ -autocorr w 0 := fun l hc =>
    h l (autocorr_eq_neg_max_shift w l hc)
  rw [np_roll_ofFn w k]
  set g : Fin n → ℝ := fun i => w (i - (k : Fin n)) with hgdef
  set CA : Fin n → ℝ := fun t => autocorr w (t + (k : Fin n)) with hCAdef
  have hC : (fun t : Fin n => ∑ m : Fin n, w m * g (m - t)) = CA := by
    funext t
    rw [hCAdef]
    show ∑ m : Fin n, w m * g (m - t) = autocorr w (t + (k : Fin n))
    unfold autocorr
    refine Finset.sum_congr rfl (fun m _ => ?_)
    rw [hgdef]
    show w m * w ((m - t) - (k : Fin n)) = w m * w (m - (t + (k : Fin n)))
    rw [sub_sub]
  have hattain : CA (-(k : Fin n)) = autocorr w 0 := by
    rw [hCAdef]
    show autocorr w (-(k : Fin n) + (k : Fin n)) = autocorr w 0
    rw [neg_add_cancel]
  have hle : ∀ t : Fin n, CA t ≤ autocorr w 0 := fun t => autocorr_le_max w _
  have hmaxiff : ∀ t : Fin n, (∀ i, CA i ≤ CA t) ↔ CA t = autocorr w 0 := by
    intro t
    constructor
    · intro hmax
      refine le_antisymm (hle t) ?_
      have h1 := hmax (-(k : Fin n))
      rw [hattain] at h1
      exact h1
    · intro heq i
      rw [heq]
      exact hle i
  have habsiff : ∀ t : Fin n, (∀ i, |CA i| ≤ |CA t|) ↔ CA t = autocorr w 0 := by
    intro t
    constructor
    · intro hmax
      have h1 := hmax (-(k : Fin n))
      rw [hattain, abs_of_nonneg (autocorr_zero_nonneg w)] at h1
      have h2 : |CA t| ≤ autocorr w 0 := abs_autocorr_le w _
      have h3 : |CA t| = autocorr w 0 := le_antisymm h2 h1
      rcases (abs_eq (autocorr_zero_nonneg w)).mp h3 with h4 | h4
      · exact h4
      · exact absurd h4 (hnoneg _)
    · intro heq i
      rw [heq, abs_of_nonneg (autocorr_zero_nonneg w)]
      exact abs_autocorr_le w _
  have halign : align_waves [List.ofFn w, List.ofFn g] = (do
      let aligned ← alignGo (List.ofFn w) [List.ofFn g]
      Except.ok (List.ofFn w :: aligned)) := rfl
  have hgo : alignGo (List.ofFn w) [List.ofFn g] = (do
      let offset ← correlate_offset (NDArray.mk1 (List.ofFn w))
        (NDArray.mk1 (List.ofFn g))
      let rest ← alignGo (np_roll (List.ofFn g) offset) []
      Except.ok (np_roll (List.ofFn g) offset :: rest)) := rfl
  rw [halign, hgo, correlate_offset_ofFn hn w g, hC]
  have hsame : np_argmaxL ((List.ofFn CA).map (fun x => |x|)) =
      np_argmaxL (List.ofFn CA) := by
    rw [List.map_ofFn, np_argmaxL_ofFn_set, np_argmaxL_ofFn_set]
    apply argmax_set_congr
    intro j
    exact (habsiff j).trans (hmaxiff j).symm
  rw [if_neg (not_ne_iff.mpr hsame), except_bind_ok]
  set t0 := np_argmaxL (List.ofFn CA) with ht0
  have hmem := argmax_set_mem hn CA
  rw [← np_argmaxL_ofFn_set, ← ht0] at hmem
  obtain ⟨hlt, hmax⟩ := hmem
  have hj0 : (t0 : Fin n) = ⟨t0, hlt⟩ := by
    apply Fin.ext
    rw [Fin.val_natCast]
    exact Nat.mod_eq_of_lt hlt
  have hCAmax : CA ⟨t0, hlt⟩ = autocorr w 0 := (hmaxiff ⟨t0, hlt⟩).mp hmax
  have hCAmax' : autocorr w ((⟨t0, hlt⟩ : Fin n) + (k : Fin n)) = autocorr w 0 := by
    rw [hCAdef] at hCAmax
    exact hCAmax
  have hshift := autocorr_eq_max_shift w _ hCAmax'
  have hroll : np_roll (List.ofFn g) t0 = List.ofFn w := by
    rw [np_roll_ofFn g t0]
    congr 1
    funext i
    rw [hgdef]
    show w ((i - (t0 : Fin n)) - (k : Fin n)) = w i
    rw [sub_sub, hj0]
    exact hshift i
  rw [hroll]
  rfl

/-- C8 (amended): `correlate_offset(w, w)` returns 0 for every waveform, and
`align_waves([w1, rotate(w1, k)])` returns exactly `[w1, w1]` (first wave
unrotated) provided no circular rotation of `w1` equals `-w1`; in that
excluded case the phase-inversion check can fire instead. -/
theorem C8_self_alignment :
    (∀ (n : ℕ) (_hn : 0 < n) (w : Fin n → ℝ),
      correlate_offset (NDArray.mk1 (List.ofFn w))
        (NDArray.mk1 (List.ofFn w)) = Except.ok 0) ∧
    (∀ (n : ℕ) (_hn : 0 < n) (w : Fin n → ℝ) (k : ℕ),
      (∀ l : Fin n, ¬ (∀ i, w (i - l) = -(w i))) →
      align_waves [List.ofFn w, np_roll (List.ofFn w) k] =
        Except.ok [List.ofFn w, List.ofFn w]) :=
  ⟨fun _ hn w => correlate_offset_self hn w,
   fun _ hn w k h => align_rotation hn w k h⟩

theorem C8_self_alignment_witness :
    correlate_offset (NDArray.mk1 (List.ofFn (![3, 1] : Fin 2 → ℝ)))
      (NDArray.mk1 (List.ofFn (![3, 1] : Fin 2 → ℝ))) = Except.ok 0 ∧
    align_waves [List.ofFn (![2, 1] : Fin 2 → ℝ),
        np_roll (List.ofFn (![2, 1] : Fin 2 → ℝ)) 1] =
      Except.ok [List.ofFn (![2, 1] : Fin 2 → ℝ),
        List.ofFn (![2, 1] : Fin 2 → ℝ)] := by
  constructor
  · exact C8_self_alignment.1 2 (by norm_num) ![3, 1]
  · refine C8_self_alignment.2 2 (by norm_num) ![2, 1] 1 ?_
    intro l hc
    have h2 : ∀ x : Fin 2, (![2, 1] : Fin 2 → ℝ) x = 2 ∨
        (![2, 1] : Fin 2 → ℝ) x = 1 := by
      intro x
      fin_cases x
      · exact Or.inl rfl
      · exact Or.inr rfl
    have h3 := hc 0
    rcases h2 (0 - l) with h4 | h4 <;> rw [h4] at h3 <;>
      norm_num [Matrix.cons_val_zero] at h3

/-- C8 (counterexample): for `w1 = [1, -1]` and rotation amount 1 the rolled
wave is the exact negation of `w1`, and `align_waves([w1, rotate(w1, 1)])`
raises the phase-inversion error instead of returning `[w1, w1]`. -/
theorem C8_alignment_fails :
    np_roll [(1 : ℝ), -1] 1 = [-1, 1] ∧
    ∃ e, align_waves [[(1 : ℝ), -1], [-1, 1]] = Except.error e := by
  constructor
  · rfl
  · have hf : [(1 : ℝ), -1] = List.ofFn (![1, -1] : Fin 2 → ℝ) := rfl
    have hg : [(-1 : ℝ), 1] = List.ofFn (![-1, 1] : Fin 2 → ℝ) := rfl
    rw [hf, hg]
    have halign : align_waves [List.ofFn (![1, -1] : Fin 2 → ℝ),
        List.ofFn (![-1, 1] : Fin 2 → ℝ)] = (do
      let aligned ← alignGo (List.ofFn (![1, -1] : Fin 2 → ℝ))
        [List.ofFn (![-1, 1] : Fin 2 → ℝ)]
      Except.ok (List.ofFn (![1, -1] : Fin 2 → ℝ) :: aligned)) := rfl
    have hgo : alignGo (List.ofFn (![1, -1] : Fin 2 → ℝ))
        [List.ofFn (![-1, 1] : Fin 2 → ℝ)] = (do
      let offset ← correlate_offset
        (NDArray.mk1 (List.ofFn (![1, -1] : Fin 2 → ℝ)))
        (NDArray.mk1 (List.ofFn (![-1, 1] : Fin 2 → ℝ)))
      let rest ← alignGo (np_roll (List.ofFn (![-1, 1] : Fin 2 → ℝ)) offset) []
      Except.ok (np_roll (List.ofFn (![-1, 1] : Fin 2 → ℝ)) offset :: rest)) := rfl
    rw [halign, hgo,
      correlate_offset_ofFn (by norm_num) (![1, -1] : Fin 2 → ℝ) ![-1, 1]]
    have hC : (fun t : Fin 2 => ∑ m : Fin 2,
        (![1, -1] : Fin 2 → ℝ) m * (![-1, 1] : Fin 2 → ℝ) (m - t)) =
        (![-2, 2] : Fin 2 → ℝ) := by
      funext t
      fin_cases t
      · have e1 : ((0 : Fin 2) - ⟨0, by norm_num⟩) = 0 := by decide
        have e2 : ((1 : Fin 2) - ⟨0, by norm_num⟩) = 1 := by decide
        rw [Fin.sum_univ_two, e1, e2]
        norm_num [Matrix.cons_val_zero, Matrix.cons_val_one, Matrix.head_cons]
      · have e1 : ((0 : Fin 2) - ⟨1, by norm_num⟩) = 1 := by decide
        have e2 : ((1 : Fin 2) - ⟨1, by norm_num⟩) = 0 := by decide
        rw [Fin.sum_univ_two, e1, e2]
        norm_num [Matrix.cons_val_zero, Matrix.cons_val_one, Matrix.head_cons]
    rw [hC]
    have habs : np_argmaxL ((List.ofFn (![-2, 2] : Fin 2 → ℝ)).map
        (fun x => |x|)) = 0 := by
      rw [List.map_ofFn, np_argmaxL_ofFn_set]
      apply argmax_set_eq_zero (by norm_num)
      intro j
      show |(![-2, 2] : Fin 2 → ℝ) j| ≤ |(![-2, 2] : Fin 2 → ℝ) ⟨0, by norm_num⟩|
      fin_cases j <;>
        norm_num [Matrix.cons_val_zero, Matrix.cons_val_one, Matrix.head_cons]
    have hsgn : np_argmaxL (List.ofFn (![-2, 2] : Fin 2 → ℝ)) ≠ 0 := by
      rw [np_argmaxL_ofFn_set]
      apply argmax_set_ne_zero (by norm_num)
      refine ⟨1, ?_⟩
      norm_num [Matrix.cons_val_zero, Matrix.cons_val_one, Matrix.head_cons]
    rw [if_pos (by rw [habs]; exact fun hcon => hsgn hcon.symm)]
    rw [except_bind_error, except_bind_error]
    exact ⟨_, rfl⟩

/-- C9 (amended): `correlate` raises immediately on a shape mismatch or a
non-1-D input, returning no partial result, and on equal-length nonempty 1-D
inputs it returns the circular cross-correlation without raising; empty
(length 0) inputs are excluded because numpy's fft itself raises on zero
data points even though the shapes match. -/
theorem C9_correlate_shape :
    (∀ a b : NDArray, a.shape ≠ b.shape ∨ a.shape.length ≠ 1 →
      ∃ e, correlate a b = Except.error e) ∧
    (∀ la lb : List ℝ, la.length = lb.length → la ≠ [] →
      correlate (NDArray.mk1 la) (NDArray.mk1 lb) =
        Except.ok (ccorrTime la lb)) := by
  constructor
  · intro a b hbad
    unfold correlate
    rw [if_pos hbad]
    exact ⟨_, rfl⟩
  · intro la lb hlen hne
    have hn : 0 < la.length := List.length_pos.mpr hne
    have hla : la = List.ofFn (fun i : Fin la.length => la.get i) :=
      (List.ofFn_get la).symm
    have hlb : lb = List.ofFn (fun i : Fin la.length => lb.getD (i : ℕ) 0) := by
      apply list_eq_of_getD 0
      · rw [List.length_ofFn]
        exact hlen.symm
      · intro i hi
        rw [ofFn_getD _ i 0 (by rw [hlen]; exact hi)]
    have hcorr := correlate_ofFn hn (fun i : Fin la.length => la.get i)
      (fun i : Fin la.length => lb.getD (i : ℕ) 0)
    rw [← hla, ← hlb] at hcorr
    rw [hcorr]
    rfl

theorem C9_correlate_shape_witness :
    (∃ e, correlate (NDArray.mk1 [(1 : ℝ)]) (NDArray.mk1 [(1 : ℝ), 2]) =
      Except.error e) ∧
    correlate (NDArray.mk1 [(1 : ℝ), 0]) (NDArray.mk1 [(0 : ℝ), 1]) =
      Except.ok (ccorrTime [(1 : ℝ), 0] [(0 : ℝ), 1]) :=
  ⟨C9_correlate_shape.1 _ _ (Or.inl (by decide)),
   C9_correlate_shape.2 [(1 : ℝ), 0] [(0 : ℝ), 1] rfl (by simp)⟩

/-- C9 (counterexample): the empty arrays have equal shapes and are 1-D,
yet `correlate` raises (numpy's fft rejects zero data points), so the claim
that every equal-length 1-D pair returns without raising fails. -/
theorem C9_empty_input_raises :
    (NDArray.mk1 ([] : List ℝ)).shape.length = 1 ∧
    ∃ e, correlate (NDArray.mk1 ([] : List ℝ)) (NDArray.mk1 ([] : List ℝ)) =
      Except.error e := by
  refine ⟨rfl, ?_⟩
  unfold correlate
  rw [if_neg (by push_neg; exact ⟨rfl, rfl⟩)]
  have hfft : np_fft ((NDArray.mk1 ([] : List ℝ)).data) =
      Except.error "Invalid number of FFT data points" := rfl
  rw [hfft, except_bind_error]
  exact ⟨_, rfl⟩

/-- C3 (counterexample): `[1, 1]` is a nonzero waveform whose exact negation
is `[-1, -1]`, yet `correlate_offset` returns offset 0 instead of raising
the phase-inversion error. -/
theorem C3_constant_slips_through :
    correlate_offset (NDArray.mk1 [(1 : ℝ), 1]) (NDArray.mk1 [(-1 : ℝ), -1]) =
      Except.ok 0 ∧
    [(-1 : ℝ), -1] = [(1 : ℝ), 1].map (fun x => -x) ∧
    [(1 : ℝ), 1] ≠ [0, 0] := by
  refine ⟨?_, by norm_num, by norm_num⟩
  have h1 : [(1 : ℝ), 1] = List.ofFn (fun _ : Fin 2 => (1 : ℝ)) := rfl
  have h2 : [(-1 : ℝ), -1] = List.ofFn (fun _ : Fin 2 => -(1 : ℝ)) := rfl
  rw [h1, h2]
  exact correlate_offset_const_neg 2 (by norm_num) 1
